import Mathlib

/-
  Verification development for the ZELL offline file-processing pipeline.

  The definitions below are shallow embeddings of the processing code:
  the WebAssembly C modules (image-processor.c, pdf-processor.c,
  video-processor.c, the audio processor module), the OfflineProcessor
  JavaScript class (mergeFiles and the fallback mergers, the per-category
  process functions and their compression-ratio computation), the
  ConversionService format map, and the backend convert route.

  Conventions of the embedding:
  - byte buffers are lists of naturals (each entry one byte value);
  - C int arithmetic on nonnegative in-range quantities is Nat arithmetic;
  - the single-precision float arithmetic the C modules use for the
    quality ratio and the resize ratio is modelled EXACTLY, by an
    integer-arithmetic implementation of IEEE-754 binary32 rounding
    (round to nearest, ties to even) for the three operations the code
    performs: float division of two exactly representable integers,
    multiplication of an exactly representable integer by a float, and
    truncation toward zero.  Operands are integers below 2^24, so their
    float conversion is exact, and each C operation performs one correct
    rounding; overflow and subnormals are far outside the ranges used;
  - loops are embedded as structurally recursive functions on an explicit
    iteration budget (fuel).  The fuel passed at every top-level call site
    strictly exceeds the number of iterations the loop can perform (each
    iteration advances the loop index by at least one), so the budget
    branch is never the reason a loop stops;
  - C functions that return -1 on error are embedded returning an integer
    code together with the list of bytes written; undefined behaviour
    (the division by zero reachable in the compress functions) is Option
    none.
-/

/-! ## Exact model of the IEEE-754 binary32 operations used by the C code -/

/-- Number of binary digits of a natural (0 for 0), with explicit fuel so
that the definition is structurally recursive and kernel-reducible. -/
def bitLen : ℕ → ℕ → ℕ
  | 0, _ => 0
  | f+1, n => if n = 0 then 0 else bitLen f (n / 2) + 1

/-- Integer rounding of the rational x / y to the nearest integer, ties to
even, computed with integer arithmetic only. -/
def divNE (x y : ℕ) : ℕ :=
  let q := x / y
  let r := x % y
  if 2 * r < y then q
  else if 2 * r > y then q + 1
  else if q % 2 = 0 then q else q + 1

/-- Binary32 value m * 2 ^ e with nonnegative significand m.  Values the
model produces have m = 0 or m in a binade the rounding step selected. -/
structure F32 where
  m : ℕ
  e : ℤ
  deriving DecidableEq, Repr

/-- Round a * 2 ^ s / b to the nearest integer (ties to even), where the
shift s may be negative. -/
def divShift (a b : ℕ) (s : ℤ) : ℕ :=
  if 0 ≤ s then divNE (a * 2 ^ s.toNat) b else divNE a (b * 2 ^ (-s).toNat)

/-- Correctly rounded binary32 division of two naturals (both assumed
exactly representable, true for all operands the C modules divide).  The
quotient is first rounded at the shift that puts it in [2^23, 2^25); if it
lands at or above 2^24 it is re-rounded one position lower, which is the
standard correct-rounding construction. -/
def divF32 (a b : ℕ) : F32 :=
  if a = 0 ∨ b = 0 then ⟨0, 0⟩
  else
    let d : ℤ := (bitLen 128 a : ℤ) - (bitLen 128 b : ℤ)
    let s : ℤ := 24 - d
    let q := divShift a b s
    if q < 2 ^ 24 then ⟨q, -s⟩ else ⟨divShift a b (s - 1), -(s - 1)⟩

/-- Correctly rounded binary32 product of a natural below 2^24 (exact as a
float) and a binary32 value: the exact integer product of the significands
is rounded back to 24 binary digits. -/
def mulNatF32 (n : ℕ) (x : F32) : F32 :=
  let p := n * x.m
  let bl := bitLen 128 p
  if bl ≤ 24 then ⟨p, x.e⟩
  else ⟨divNE p (2 ^ (bl - 24)), x.e + (bl - 24)⟩

/-- Truncation toward zero of a nonnegative binary32 value, the effect of
the C cast to int. -/
def truncF32 (x : F32) : ℕ :=
  if 0 ≤ x.e then x.m * 2 ^ x.e.toNat else x.m / 2 ^ (-x.e).toNat

/-- Target size the compress and process C functions compute:
the C expression (int)(input_size * ((float)quality / 100.0f)). -/
def targetF32 (n q : ℕ) : ℕ := truncF32 (mulNatF32 n (divF32 q 100))

/-- Source coordinate the resize C functions compute for destination
index x: trunc of x times the float ratio srcDim / dstDim, clamped to the
last valid index — the C lines src_x = (int)(x * x_ratio) followed by
if (src_x >= input_width) src_x = input_width - 1. -/
def srcCoordF32 (x srcDim dstDim : ℕ) : ℕ :=
  min (truncF32 (mulNatF32 x (divF32 srcDim dstDim))) (srcDim - 1)

/-! ## image-processor.c -/

/-- Byte transform the process_image loop applies per format code
(0 = JPEG, 1 = PNG, 2 = WEBP); formats outside 0..2 write nothing.
Source: wasm-modules/src/image-processor.c lines 46-54. -/
def piByte (quality format b : ℕ) : Option ℕ :=
  match format with
  | 0 => some (b * quality / 100)
  | 1 => some b
  | 2 => some (b * (quality + 20) / 120)
  | _ => none

/-- Processed size computed by process_image before the clamp:
compression_factor = (100 - quality) / 10 and
processed_size = input_size - input_size * compression_factor / 100.
Modelled for quality ≤ 100, the documented range, where the C int
divisions agree with Nat division.
Source: wasm-modules/src/image-processor.c lines 38-39. -/
def piProcessedSize (len quality : ℕ) : ℕ :=
  len - len * ((100 - quality) / 10) / 100

/-- Embedding of process_image from wasm-modules/src/image-processor.c
lines 26-57.  Returns the C return value together with the bytes the loop
wrote, in order.  The guard clause models the null and nonpositive-size
checks returning -1.  The copy loop runs for
i < processed_size and i < input_size; processed_size never exceeds
input_size, and it is clamped to output_size beforehand. -/
def process_image (input : List ℕ) (outCap quality format : ℕ) : ℤ × List ℕ :=
  if input.length = 0 ∨ outCap = 0 then (-1, [])
  else
    let processed := piProcessedSize input.length quality
    let processed := if processed > outCap then outCap else processed
    let written :=
      match piByte quality format 0 with
      | none => []
      | some _ =>
        (List.range (min processed input.length)).map
          (fun i => (piByte quality format (input.getD i 0)).getD 0)
    ((processed : ℤ), written)

/-- Loop body of compress_image from wasm-modules/src/image-processor.c
lines 88-90: subsample one input byte per step, advancing i by step and j
by one, while i < input_size and j < target_size.  The fuel argument
counts the remaining values of j. -/
def ciGo (input : List ℕ) (step i : ℕ) : ℕ → List ℕ
  | 0 => []
  | r+1 =>
    if i < input.length then input.getD i 0 :: ciGo input step (i + step) r
    else []

/-- Embedding of compress_image from wasm-modules/src/image-processor.c
lines 68-93.  target_size is the single-precision computation
(int)(input_size * ((float)quality / 100.0f)) clamped to output_size; a
zero target makes the step computation divide by zero (undefined
behaviour, modelled as none). -/
def compress_image (input : List ℕ) (outCap quality : ℕ) : Option (ℤ × List ℕ) :=
  if input.length = 0 ∨ outCap = 0 then some (-1, [])
  else
    let t0 := targetF32 input.length quality
    let target := if t0 > outCap then outCap else t0
    if target = 0 then none
    else
      let step := max (input.length / target) 1
      some ((target : ℤ), ciGo input step 0 target)

/-- Pixels of one resized frame, row-major, as written by the nested
loops of resize_image and resize_video_frames: destination pixel (x, y)
copies the ch bytes at source index
(src_y * srcW + src_x) * ch with src_x = srcCoordF32 x srcW dstW and
src_y = srcCoordF32 y srcH dstH, read at byte offset off of the input.
Source: wasm-modules/src/image-processor.c lines 115-134. -/
def resizeFramePixels (input : List ℕ) (off srcW srcH dstW dstH ch : ℕ) : List ℕ :=
  (List.range dstH).flatMap (fun y =>
    (List.range dstW).flatMap (fun x =>
      (List.range ch).map (fun c =>
        input.getD
          (off + (srcCoordF32 y srcH dstH * srcW + srcCoordF32 x srcW dstW) * ch + c) 0)))

/-- Embedding of resize_image from wasm-modules/src/image-processor.c
lines 107-137: guard on nonpositive arguments returning -1, else 0 with
the full destination pixel buffer. -/
def resize_image (input : List ℕ) (srcW srcH dstW dstH ch : ℕ) : ℤ × List ℕ :=
  if srcW = 0 ∨ srcH = 0 ∨ dstW = 0 ∨ dstH = 0 ∨ ch = 0 then (-1, [])
  else (0, resizeFramePixels input 0 srcW srcH dstW dstH ch)

/-- Embedding of resize_video_frames from
wasm-modules/src/video-processor.c lines 211-249: every frame is resized
independently with 3 channels; frame f reads at byte offset
f * srcW * srcH * 3 of the input. -/
def resize_video_frames (input : List ℕ) (srcW srcH dstW dstH frames : ℕ) : ℤ × List ℕ :=
  if srcW = 0 ∨ srcH = 0 ∨ dstW = 0 ∨ dstH = 0 ∨ frames = 0 then (-1, [])
  else
    (0, (List.range frames).flatMap (fun f =>
      resizeFramePixels input (f * (srcW * srcH * 3)) srcW srcH dstW dstH 3))

/-! ## audio processor module (compress_audio) -/

/-- Inner accumulation loop of compress_audio: sum and count of the
window samples input[i + k] for k < step with i + k < input_size.
Source: audio processor module lines 101-106. -/
def caWin (input : List ℕ) (i : ℕ) : ℕ → ℕ × ℕ
  | 0 => (0, 0)
  | k+1 =>
    let p := caWin input i k
    if i + k < input.length then (p.1 + input.getD (i + k) 0, p.2 + 1) else p

/-- Outer loop of compress_audio: while i < input_size and j < target_size,
write sum / count of the current window and advance i by step.  The fuel
argument counts the remaining values of j, so it starts at target_size. -/
def caGo (input : List ℕ) (step i : ℕ) : ℕ → List ℕ
  | 0 => []
  | r+1 =>
    if i < input.length then
      (caWin input i step).1 / (caWin input i step).2 :: caGo input step (i + step) r
    else []

/-- Embedding of compress_audio from the audio processor module lines
80-111.  target_size is the single-precision computation
(int)(input_size * ((float)quality / 100.0f)) clamped to output_size; a
zero target makes step = input_size / target_size divide by zero
(undefined behaviour, modelled as none).  Each written byte is the
truncating integer division sum / count over its window. -/
def compress_audio (input : List ℕ) (outCap quality : ℕ) : Option (ℤ × List ℕ) :=
  if input.length = 0 ∨ outCap = 0 then some (-1, [])
  else
    let t0 := targetF32 input.length quality
    let target := if t0 > outCap then outCap else t0
    if target = 0 then none
    else
      let step := max (input.length / target) 1
      some ((target : ℤ), caGo input step 0 target)

/-! ## pdf-processor.c -/

/-- Byte codes of the string written before the concatenated files by
merge_pdfs. -/
def pdfHeader : List ℕ := [37, 80, 68, 70, 45, 49, 46, 52, 10]

/-- Byte codes of the string written after the concatenated files by
merge_pdfs. -/
def pdfFooter : List ℕ := [10, 37, 37, 69, 79, 70, 10]

/-- Copy step of merge_pdfs for the file at position i: files of positive
size are appended, with the first 8 bytes skipped when a later file starts
with the codes of the percent-PDF-dash marker; a memcpy whose end would
reach the capacity is skipped, leaving the offset (here the accumulator
length) unchanged.  Source: wasm-modules/src/pdf-processor.c lines
119-135. -/
def mpStep (outCap : ℕ) (acc : List ℕ) (pr : ℕ × List ℕ) : List ℕ :=
  if pr.2.length > 0 then
    let skip :=
      if pr.1 > 0 ∧ pr.2.length > 8 ∧ pr.2.take 5 = [37, 80, 68, 70, 45] then 8 else 0
    let copy := pr.2.drop skip
    if acc.length + copy.length < outCap then acc ++ copy else acc
  else acc

/-- Embedding of merge_pdfs from wasm-modules/src/pdf-processor.c lines
92-146.  A total input size above the capacity is rejected with -1 before
anything is written; otherwise header, files and footer are appended under
the per-write capacity guards, and the final offset is returned. -/
def merge_pdfs (files : List (List ℕ)) (outCap : ℕ) : ℤ × List ℕ :=
  if files.length = 0 ∨ outCap = 0 then (-1, [])
  else
    let total := (files.map List.length).sum
    if total > outCap then (-1, [])
    else
      let w0 := if pdfHeader.length < outCap then pdfHeader else []
      let w1 := files.enum.foldl (mpStep outCap) w0
      let w2 := if w1.length + pdfFooter.length < outCap then w1 ++ pdfFooter else w1
      ((w2.length : ℤ), w2)

/-- Inner string-copy loop of extract_text: starting just after an opening
parenthesis, copy printable bytes (32 to 126) until a closing parenthesis
(code 41), the end of the input, or a full output (length cap - 1) stops
the loop.  Returns the index the loop stopped at and the grown output.
The fuel starts above the input length at every call site, so it never
cuts the loop short.  Source: wasm-modules/src/pdf-processor.c lines
185-190. -/
def etString (input : List ℕ) (cap : ℕ) : ℕ → ℕ → List ℕ → ℕ × List ℕ
  | 0, i, acc => (i, acc)
  | f+1, i, acc =>
    if i < input.length ∧ input.getD i 0 ≠ 41 ∧ acc.length < cap - 1 then
      etString input cap f (i + 1)
        (if 32 ≤ input.getD i 0 ∧ input.getD i 0 ≤ 126 then acc ++ [input.getD i 0] else acc)
    else (i, acc)

/-- Outer loop of extract_text.  While i < input_size and the output is
not full: a BT marker (codes 66 84) read while at least 5 bytes remain
turns text mode on and an ET marker (codes 69 84) turns it off, each
consuming two positions; inside text mode an opening parenthesis (code 40)
runs the inner copy loop and then appends one separator space (code 32)
when the output is not full; any other byte is skipped.  Source:
wasm-modules/src/pdf-processor.c lines 166-196. -/
def etGo (input : List ℕ) (cap : ℕ) : ℕ → ℕ → Bool → List ℕ → List ℕ
  | 0, _, _, acc => acc
  | f+1, i, inText, acc =>
    if i < input.length ∧ acc.length < cap - 1 then
      if i + 5 ≤ input.length ∧ input.getD i 0 = 66 ∧ input.getD (i + 1) 0 = 84 then
        etGo input cap f (i + 2) true acc
      else if i + 5 ≤ input.length ∧ input.getD i 0 = 69 ∧ input.getD (i + 1) 0 = 84 then
        etGo input cap f (i + 2) false acc
      else if inText ∧ input.getD i 0 = 40 then
        let p := etString input cap (input.length + 1) (i + 1) acc
        etGo input cap f (p.1 + 1) inText
          (if p.2.length < cap - 1 then p.2 ++ [32] else p.2)
      else etGo input cap f (i + 1) inText acc
    else acc

/-- Result of extract_text: the returned size, the text bytes written in
order, and the index at which the terminating zero byte is stored when it
fits the capacity. -/
structure ETResult where
  ret : ℤ
  text : List ℕ
  nulIndex : Option ℕ
  deriving DecidableEq, Repr

/-- Embedding of extract_text from wasm-modules/src/pdf-processor.c lines
157-204: guard clause returning -1, the scanning loop, and the guarded
write of the terminating zero byte at index text_size. -/
def extract_text (input : List ℕ) (cap : ℕ) : ETResult :=
  if input.length = 0 ∨ cap = 0 then ⟨-1, [], none⟩
  else
    let acc := etGo input cap (input.length + 2) 0 false []
    ⟨(acc.length : ℤ), acc, if acc.length < cap then some acc.length else none⟩

/-! ## OfflineProcessor (src/theme/theme.js) -/

/-- Categories of the detected file type, as the application classifies
inputs; mergeFiles never consults them, which is what claim C3 is about. -/
inductive MCategory where
  | image | audio | video | document | archive
  deriving DecidableEq, Repr

/-- One input of mergeFiles: the detected category, the raw bytes read
from storage, and the page list pdf-lib produces when the bytes are loaded
as a PDF document (pages are abstracted to identifiers; copyPages followed
by addPage keeps their order). -/
structure MFile where
  category : MCategory
  bytes : List ℕ
  pages : List ℕ
  deriving DecidableEq, Repr

/-- Embedding of mergePdfsFallback from src/theme/theme.js lines 522-536
at the page level: each document in order has all its pages copied and
appended to the merged document. -/
def mergePdfsFallback (docs : List (List ℕ)) : List ℕ :=
  docs.foldl (fun acc d => acc ++ d) []

/-- Embedding of mergeAudioFallback from src/theme/theme.js lines 514-516:
Buffer.concat of the input buffers. -/
def mergeAudioFallback (bufs : List (List ℕ)) : List ℕ := bufs.flatten

/-- Embedding of mergeVideoFallback from src/theme/theme.js lines 518-520:
Buffer.concat of the input buffers. -/
def mergeVideoFallback (bufs : List (List ℕ)) : List ℕ := bufs.flatten

/-- Merged output of mergeFiles: a page list for the pdf branch, raw bytes
for the audio and video branches. -/
inductive MergedData where
  | pdfPages (pages : List ℕ)
  | bytes (data : List ℕ)
  deriving DecidableEq, Repr

/-- Embedding of the format switch of mergeFiles from src/theme/theme.js
lines 616-669.  The source lowercases the format before the switch; the
model takes the lowercased format.  No category or compatibility check
happens on any branch; unknown formats throw the unsupported-merge-format
error. -/
def mergeFiles (files : List MFile) (fmt : String) : Except String MergedData :=
  match fmt with
  | "pdf" => .ok (.pdfPages (mergePdfsFallback (files.map MFile.pages)))
  | "mp3" | "wav" | "aac" => .ok (.bytes (mergeAudioFallback (files.map MFile.bytes)))
  | "mp4" | "mov" | "avi" | "mkv" => .ok (.bytes (mergeVideoFallback (files.map MFile.bytes)))
  | other => .error (String.append ("Unsupported merge format: ") other)

/-- Progress percentages processImage reports through onProgress, in
order of emission.  Source: src/theme/theme.js lines 237-289. -/
def processImageProgress : List ℚ := [10, 30, 50, 80, 100]

/-- Progress percentages mergeFiles reports through onProgress for n
input files: 10 at the start, 10 + (i + 1) * 30 / n after reading file i,
then 70, 90 and 100.  JavaScript evaluates the division in double
precision; rounding is monotone, so the ordering facts proved below
transfer.  Source: src/theme/theme.js lines 616-669. -/
def mergeFilesProgress (n : ℕ) : List ℚ :=
  10 :: (((List.range n).map (fun i : ℕ => 10 + ((i : ℚ) + 1) * 30 / (n : ℚ))) ++ [70, 90, 100])

/-- Compression ratio reported by processImage (src/theme/theme.js line
283) and ImageConverter.convert (backend/converters/imageConverter.js
line 61): (originalSize - compressedSize) / originalSize * 100, with no
clamping and no zero guard; a zero original size divides by zero, giving
NaN in JavaScript, modelled as none.  The sources round the value to two
decimals for display; the model keeps the exact value. -/
def compressionRatioPct (orig out : ℕ) : Option ℚ :=
  if orig = 0 then none else some (((orig : ℚ) - (out : ℚ)) / (orig : ℚ) * 100)

/-! ## ConversionService and the backend convert route -/

/-- Embedding of the conversionMap object of
ConversionService.isConversionSupported,
src/services/ConversionService.js lines 173-202. -/
def conversionMap (fromFormat : String) : Option (List String) :=
  match fromFormat with
  | "jpg" => some (["png", "webp"])
  | "jpeg" => some (["png", "webp"])
  | "png" => some (["jpg", "webp"])
  | "webp" => some (["jpg", "png"])
  | "gif" => some (["jpg", "png", "webp"])
  | "mp3" => some (["wav", "aac"])
  | "wav" => some (["mp3", "aac"])
  | "aac" => some (["mp3", "wav"])
  | "mp4" => some (["mov", "avi", "mkv"])
  | "mov" => some (["mp4", "avi", "mkv"])
  | "avi" => some (["mp4", "mov", "mkv"])
  | "mkv" => some (["mp4", "mov", "avi"])
  | "pdf" => some (["docx", "txt"])
  | "docx" => some (["pdf", "txt"])
  | "txt" => some (["pdf", "docx"])
  | "pptx" => some (["pdf"])
  | "zip" => some (["rar", "7z"])
  | "rar" => some (["zip", "7z"])
  | "7z" => some (["zip", "rar"])
  | _ => none

/-- Embedding of ConversionService.isConversionSupported,
src/services/ConversionService.js lines 172-205: a map lookup with
includes, false for unknown source formats.  convertFile never calls this
function; only getEstimatedConversionTime does. -/
def isConversionSupported (fromFormat toFormat : String) : Bool :=
  match conversionMap fromFormat with
  | some targets => targets.contains toFormat
  | none => false

/-- Converter adapters of the backend. -/
inductive Adapter where
  | image | audio | video | document | archive
  deriving DecidableEq, Repr

/-- Embedding of the extension switch of the backend convert route,
server.js lines 90-122: the adapter is chosen from the source file
extension alone; unknown extensions answer 400 without an adapter call. -/
def routeConvert (srcExt : String) : Option Adapter :=
  match srcExt with
  | "jpg" | "jpeg" | "png" | "webp" | "gif" => some .image
  | "mp3" | "wav" | "aac" => some .audio
  | "mp4" | "mov" | "avi" | "mkv" => some .video
  | "pdf" | "docx" | "txt" | "pptx" => some .document
  | "zip" | "rar" | "7z" => some .archive
  | _ => none

/-- Adapter a conversion request reaches: ConversionService.convertFile
(src/services/ConversionService.js lines 18-73) performs no validation of
the requested target format and posts every request to the backend, whose
route switches on the source extension only, so the target format plays
no part in routing. -/
def convertRequestAdapter (srcExt _targetFmt : String) : Option Adapter :=
  routeConvert srcExt

/-- Concrete merge inputs used by the order-preservation witness: two
document files with known page lists and bytes. -/
def exMergeInputs : List MFile :=
  [⟨MCategory.document, [1], [10, 11]⟩, ⟨MCategory.document, [2, 3], [12]⟩]

/-! ## General list lemmas -/

/-- Folding append over a list of lists from any start equals the start
followed by the flattening; this is the shape of the mergePdfsFallback
page loop. -/
theorem foldl_append_eq_append_flatten {α : Type} (L : List (List α)) (init : List α) :
    L.foldl (fun acc d => acc ++ d) init = init ++ L.flatten := by
  induction L generalizing init with
  | nil => simp
  | cons hd tl ih => simp [ih, List.append_assoc]

/-- Block i of a flattened list of lists is exactly list i: dropping the
lengths of the earlier blocks and taking the length of block i recovers
it. -/
theorem flatten_drop_take_eq {α : Type} (L : List (List α)) (i : ℕ) (hi : i < L.length) :
    ((L.flatten).drop (((L.take i).map List.length).sum)).take (L.getD i []).length
      = L.getD i [] := by
  induction L generalizing i with
  | nil => simp at hi
  | cons hd tl ih =>
    cases i with
    | zero =>
      simp [List.take_append]
    | succ j =>
      have hj : j < tl.length := by simpa using hi
      have key := ih j hj
      have hdrop : (hd ++ tl.flatten).drop
          (hd.length + (((tl.take j).map List.length).sum))
          = tl.flatten.drop (((tl.take j).map List.length).sum) :=
        List.drop_append _
      simpa [hdrop] using key

/-- Reading the first n entries of a list through getD over a range
recovers take, provided n is within the length. -/
theorem range_map_getD_eq_take (l : List ℕ) (n : ℕ) (hn : n ≤ l.length) :
    (List.range n).map (fun i => l.getD i 0) = l.take n := by
  induction n with
  | zero => simp
  | succ m ih =>
    have hm : m ≤ l.length := Nat.le_of_succ_le hn
    have hlt : m < l.length := hn
    rw [List.range_succ, List.map_append, ih hm, List.take_succ]
    simp [List.getD_eq_getElem?_getD, List.getElem?_eq_getElem hlt]

/-! ## C1 — reported compression ratio -/

/-- Claim C1 counterexample: with original size 100 and output size 150
the reported ratio is -50, outside [0, 100], and with original size 0 the
ratio is undefined (division by zero, NaN in JavaScript), not 0. -/
theorem compressionRatioPct_cex :
    compressionRatioPct 100 150 = some (-50) ∧ ((-50 : ℚ) < 0) ∧
    compressionRatioPct 0 7 ≠ some 0 := by
  refine ⟨?_, by norm_num, ?_⟩
  · rw [compressionRatioPct, if_neg (by norm_num)]
    norm_num
  · simp [compressionRatioPct]

/-- Claim C1 (amended): the reported compression ratio equals
(original - output) / original * 100 exactly, with no clamping: it lies in
[0, 100] precisely when the output size does not exceed the original
size (and is negative otherwise), and an original size of 0 leaves the
ratio undefined (NaN) rather than 0, there being no divide-by-zero
guard. -/
theorem compressionRatioPct_formula (orig out : ℕ) (h : 0 < orig) :
    compressionRatioPct orig out = some (((orig : ℚ) - (out : ℚ)) / (orig : ℚ) * 100) ∧
    (∀ r, compressionRatioPct orig out = some r → ((0 ≤ r ∧ r ≤ 100) ↔ out ≤ orig)) ∧
    compressionRatioPct 0 out = none := by
  have hpos : (0 : ℚ) < (orig : ℚ) := by exact_mod_cast h
  have h0 : (orig : ℚ) ≠ 0 := ne_of_gt hpos
  refine ⟨by rw [compressionRatioPct, if_neg h.ne'], ?_, by simp [compressionRatioPct]⟩
  intro r hr
  rw [compressionRatioPct, if_neg h.ne', Option.some.injEq] at hr
  subst hr
  constructor
  · rintro ⟨h1, -⟩
    have : (0 : ℚ) ≤ ((orig : ℚ) - (out : ℚ)) := by
      by_contra hneg
      push_neg at hneg
      have : ((orig : ℚ) - (out : ℚ)) / (orig : ℚ) * 100 < 0 := by
        apply mul_neg_of_neg_of_pos _ (by norm_num)
        exact div_neg_of_neg_of_pos hneg hpos
      linarith
    have : (out : ℚ) ≤ (orig : ℚ) := by linarith
    exact_mod_cast this
  · intro hle
    have hle' : (out : ℚ) ≤ (orig : ℚ) := by exact_mod_cast hle
    constructor
    · have hnn : (0 : ℚ) ≤ ((orig : ℚ) - (out : ℚ)) / (orig : ℚ) :=
        div_nonneg (by linarith) hpos.le
      nlinarith
    · have h1 : ((orig : ℚ) - (out : ℚ)) / (orig : ℚ) ≤ 1 := by
        rw [div_le_one hpos]
        have : (0 : ℚ) ≤ (out : ℚ) := by positivity
        linarith
      nlinarith
/-- Claim C1 witness: the amended statement instantiated at original size
4, output size 3. -/
theorem compressionRatioPct_witness :
    compressionRatioPct 4 3 = some (((4 : ℚ) - (3 : ℚ)) / (4 : ℚ) * 100) ∧
    (∀ r, compressionRatioPct 4 3 = some r → ((0 ≤ r ∧ r ≤ 100) ↔ 3 ≤ 4)) ∧
    compressionRatioPct 0 3 = none :=
  compressionRatioPct_formula 4 3 (by decide)

/-! ## C2 — merge preserves declared input order -/

/-- Claim C2: mergeFiles preserves the declared order of its inputs.  On
the pdf branch the merged page list is the concatenation of the input
page lists and block i of it is exactly the page list of input i; on the
audio and video branches the output bytes are the concatenation of the
input buffers and block i is exactly the bytes of input i. -/
theorem mergeFiles_preserves_input_order (files : List MFile) (i : ℕ)
    (hi : i < files.length) :
    mergeFiles files ("pdf")
        = .ok (.pdfPages ((files.map MFile.pages).flatten)) ∧
    mergeFiles files ("mp3") = .ok (.bytes ((files.map MFile.bytes).flatten)) ∧
    mergeFiles files ("mp4") = .ok (.bytes ((files.map MFile.bytes).flatten)) ∧
    (((files.map MFile.pages).flatten).drop
        ((((files.map MFile.pages).take i).map List.length).sum)).take
        (files.getD i ⟨MCategory.image, [], []⟩).pages.length
      = (files.getD i ⟨MCategory.image, [], []⟩).pages ∧
    (((files.map MFile.bytes).flatten).drop
        ((((files.map MFile.bytes).take i).map List.length).sum)).take
        (files.getD i ⟨MCategory.image, [], []⟩).bytes.length
      = (files.getD i ⟨MCategory.image, [], []⟩).bytes := by
  have hp : (files.map MFile.pages).getD i []
      = (files.getD i ⟨MCategory.image, [], []⟩).pages := by
    have hi' : i < (files.map MFile.pages).length := by simpa using hi
    rw [List.getD_eq_getElem?_getD, List.getD_eq_getElem?_getD,
      List.getElem?_eq_getElem hi', List.getElem?_eq_getElem hi]
    simp
  have hb : (files.map MFile.bytes).getD i []
      = (files.getD i ⟨MCategory.image, [], []⟩).bytes := by
    have hi' : i < (files.map MFile.bytes).length := by simpa using hi
    rw [List.getD_eq_getElem?_getD, List.getD_eq_getElem?_getD,
      List.getElem?_eq_getElem hi', List.getElem?_eq_getElem hi]
    simp
  refine ⟨?_, rfl, rfl, ?_, ?_⟩
  · show Except.ok (MergedData.pdfPages (mergePdfsFallback (files.map MFile.pages))) = _
    rw [mergePdfsFallback, foldl_append_eq_append_flatten]
    simp
  · have := flatten_drop_take_eq (files.map MFile.pages) i (by simpa using hi)
    rwa [hp] at this
  · have := flatten_drop_take_eq (files.map MFile.bytes) i (by simpa using hi)
    rwa [hb] at this

/-- Claim C2 witness: order preservation instantiated at two concrete
document inputs and block index 1. -/
theorem mergeFiles_preserves_input_order_witness :
    mergeFiles exMergeInputs ("pdf")
        = .ok (.pdfPages ((exMergeInputs.map MFile.pages).flatten)) ∧
    mergeFiles exMergeInputs ("mp3")
        = .ok (.bytes ((exMergeInputs.map MFile.bytes).flatten)) ∧
    mergeFiles exMergeInputs ("mp4")
        = .ok (.bytes ((exMergeInputs.map MFile.bytes).flatten)) ∧
    (((exMergeInputs.map MFile.pages).flatten).drop
        ((((exMergeInputs.map MFile.pages).take 1).map List.length).sum)).take
        (exMergeInputs.getD 1 ⟨MCategory.image, [], []⟩).pages.length
      = (exMergeInputs.getD 1 ⟨MCategory.image, [], []⟩).pages ∧
    (((exMergeInputs.map MFile.bytes).flatten).drop
        ((((exMergeInputs.map MFile.bytes).take 1).map List.length).sum)).take
        (exMergeInputs.getD 1 ⟨MCategory.image, [], []⟩).bytes.length
      = (exMergeInputs.getD 1 ⟨MCategory.image, [], []⟩).bytes :=
  mergeFiles_preserves_input_order exMergeInputs 1 (by decide)

/-! ## C3 — merging incompatible categories -/

/-- Claim C3 counterexample: one image file and one audio file merged
into the video format mp4 do not fail; the bytes are concatenated and a
merged output is produced, with no IncompatibleMergeInputs error. -/
theorem mergeFiles_incompatible_cex :
    mergeFiles [⟨MCategory.image, [1, 2], []⟩, ⟨MCategory.audio, [3, 4], []⟩] ("mp4")
      = .ok (.bytes [1, 2, 3, 4]) := rfl

/-- Claim C3 (amended): mergeFiles performs no category-compatibility
check: inputs of any categories merged into any audio or video target
format are byte-concatenated in declared order and produce an output;
the only merge-stage failure is an unsupported output format, and no
IncompatibleMergeInputs error exists in the code. -/
theorem mergeFiles_no_category_check (files : List MFile) (fmt : String)
    (h : fmt ∈ ["mp3", "wav", "aac", "mp4", "mov", "avi", "mkv"]) :
    mergeFiles files fmt = .ok (.bytes ((files.map MFile.bytes).flatten)) := by
  fin_cases h <;> rfl

/-- Claim C3 witness: the amended statement instantiated at one image
plus one audio input merged into wav. -/
theorem mergeFiles_no_category_check_witness :
    mergeFiles [⟨MCategory.image, [9], []⟩, ⟨MCategory.audio, [8], []⟩] ("wav")
      = .ok (.bytes (([⟨MCategory.image, [9], []⟩,
          ⟨MCategory.audio, [8], []⟩] : List MFile).map MFile.bytes).flatten) :=
  mergeFiles_no_category_check _ _ (by decide)

/-! ## C7 — zip to mp3 conversion requests -/

/-- Claim C7 counterexample: a request converting a zip file to mp3 is
routed to the archive adapter (one adapter invocation), instead of being
rejected at validation with zero adapter invocations. -/
theorem convertRequestAdapter_cex :
    convertRequestAdapter ("zip") ("mp3") = some Adapter.archive := by decide

/-- Claim C7 (amended): isConversionSupported does not list mp3 among the
legal targets of zip, but convertFile never consults it: the request is
posted to the backend, which routes purely by source extension and
invokes the archive adapter; no IllegalConversion error exists in the
code. -/
theorem zip_to_mp3_not_validated :
    isConversionSupported ("zip") ("mp3") = false ∧
    conversionMap ("zip") = some (["rar", "7z"]) ∧
    convertRequestAdapter ("zip") ("mp3") = some Adapter.archive := by
  refine ⟨by decide, by decide, by decide⟩

/-! ## C8 — progress percentages are monotone -/

/-- Claim C8: within one job the reported percent-complete values are
monotonically non-decreasing, for the mergeFiles stream at any positive
number of input files and for the processImage stream. -/
theorem progress_monotone (n : ℕ) (hn : 1 ≤ n) :
    List.Chain' (· ≤ ·) (mergeFilesProgress n) ∧
    List.Chain' (· ≤ ·) processImageProgress := by
  constructor
  · obtain ⟨m, rfl⟩ : ∃ m, n = m + 1 := ⟨n - 1, by omega⟩
    have hc : (0 : ℚ) < ((m : ℚ) + 1) := by positivity
    rw [mergeFilesProgress]
    rw [List.chain'_cons']
    constructor
    · intro y hy
      rw [List.head?_append, List.range_succ_eq_map, List.map_cons] at hy
      simp only [List.head?_cons, Option.or_some, Option.mem_def, Option.some.injEq] at hy
      subst hy
      have : (0 : ℚ) ≤ ((0 : ℕ) + 1) * 30 / ((m + 1 : ℕ) : ℚ) := by positivity
      push_cast at this ⊢
      linarith
    · rw [List.chain'_append]
      refine ⟨?_, ?_, ?_⟩
      · rw [List.chain'_map, List.chain'_range_succ]
        intro k hk
        have h1 : ((k : ℚ) + 1) * 30 / ((m + 1 : ℕ) : ℚ)
            ≤ ((k : ℚ) + 1 + 1) * 30 / ((m + 1 : ℕ) : ℚ) := by
          apply div_le_div_of_nonneg_right ?_ (by push_cast; linarith)
          linarith
        push_cast at h1 ⊢
        linarith
      · simp [List.chain'_cons]
        norm_num
      · intro x hx y hy
        simp only [List.head?_cons, Option.mem_def, Option.some.injEq] at hy
        subst hy
        have hx' := List.mem_of_mem_getLast? hx
        rw [List.mem_map] at hx'
        obtain ⟨k, hk, rfl⟩ := hx'
        rw [List.mem_range] at hk
        have hk1 : ((k : ℚ) + 1) ≤ ((m : ℚ) + 1) := by
          have : (k : ℚ) ≤ (m : ℚ) := by exact_mod_cast Nat.lt_succ_iff.mp hk
          linarith
        have h30 : ((k : ℚ) + 1) * 30 / ((m + 1 : ℕ) : ℚ) ≤ 30 := by
          rw [div_le_iff₀ (by push_cast; linarith)]
          push_cast
          nlinarith
        push_cast at h30 ⊢
        linarith
  · rw [processImageProgress]
    simp [List.chain'_cons]
    norm_num

/-- Claim C8 witness: both progress streams instantiated, the merge
stream at three input files. -/
theorem progress_monotone_witness :
    List.Chain' (· ≤ ·) (mergeFilesProgress 3) ∧
    List.Chain' (· ≤ ·) processImageProgress :=
  progress_monotone 3 (by decide)

/-! ## C4 — output capacity handling of the adapters -/

/-- Claim C4 counterexample: process_image with 10 input bytes, capacity
5 and quality 100 would produce 10 bytes; it returns 5 with the first 5
transformed bytes — a silent clamp to the capacity, with no error
signalled. -/
theorem process_image_truncates_cex :
    process_image [1, 2, 3, 4, 5, 6, 7, 8, 9, 10] 5 100 1 = (5, [1, 2, 3, 4, 5]) := by
  decide

/-- Claim C4 (amended): when the result would exceed the caller-provided
capacity, merge_pdfs signals an error — it returns -1 before writing any
byte — but process_image does not: it silently clamps the processed size
to the capacity and returns the clamped size as success. -/
theorem adapter_capacity_behavior :
    (∀ (files : List (List ℕ)) (cap : ℕ), 0 < files.length → 0 < cap →
      cap < (files.map List.length).sum → merge_pdfs files cap = (-1, [])) ∧
    (∀ (input : List ℕ) (cap q : ℕ), 0 < cap → q ≤ 100 →
      cap < piProcessedSize input.length q →
      process_image input cap q 1 = ((cap : ℤ), input.take cap)) := by
  constructor
  · intro files cap hf hcap hsum
    rw [merge_pdfs, if_neg (by omega), if_pos (by omega)]
  · intro input cap q hcap hq hover
    have hlen : piProcessedSize input.length q ≤ input.length :=
      Nat.sub_le _ _
    have hinput : 0 < input.length := by omega
    rw [process_image, if_neg (by omega)]
    simp only [piByte, Option.getD_some]
    rw [if_pos hover]
    have hmin : min cap input.length = cap := by omega
    rw [hmin, range_map_getD_eq_take input cap (by omega)]

/-! ## Indexing lemmas for uniform nested loops -/

/-- Length of a flat map over a range whose blocks all have length k. -/
theorem flatMap_range_length (n k : ℕ) (f : ℕ → List ℕ) (hf : ∀ i < n, (f i).length = k) :
    ((List.range n).flatMap f).length = n * k := by
  induction n with
  | zero => simp
  | succ m ih =>
    rw [List.range_succ, List.flatMap_append]
    simp only [List.length_append, ih (fun i hi => hf i (by omega))]
    simp [hf m (by omega), Nat.succ_mul]

/-- Entry i * k + j of a flat map over a range whose blocks all have
length k is entry j of block i. -/
theorem flatMap_range_getD (n k : ℕ) (f : ℕ → List ℕ) (hf : ∀ i < n, (f i).length = k)
    (i j : ℕ) (hi : i < n) (hj : j < k) :
    ((List.range n).flatMap f).getD (i * k + j) 0 = (f i).getD j 0 := by
  induction n with
  | zero => omega
  | succ m ih =>
    rw [List.range_succ, List.flatMap_append]
    have hlen : ((List.range m).flatMap f).length = m * k :=
      flatMap_range_length m k f (fun a ha => hf a (by omega))
    rcases Nat.lt_or_ge i m with hcase | hcase
    · rw [List.getD_append _ _ _ _ (by
        rw [hlen]
        have : (i + 1) * k ≤ m * k := Nat.mul_le_mul_right k hcase
        calc i * k + j < i * k + k := by omega
          _ = (i + 1) * k := by ring
          _ ≤ m * k := this)]
      exact ih (fun a ha => hf a (by omega)) hcase
    · have him : i = m := by omega
      subst him
      rw [List.getD_append_right _ _ _ _ (by rw [hlen]; omega)]
      rw [hlen]
      have hj' : i * k + j - i * k = j := by omega
      rw [hj']
      simp

/-- Entry c of a map over a range is the function at c. -/
theorem map_range_getD (k c : ℕ) (hc : c < k) (g : ℕ → ℕ) :
    ((List.range k).map g).getD c 0 = g c := by
  rw [List.getD_eq_getElem?_getD, List.getElem?_map, List.getElem?_range hc]
  rfl

/-- Length of one resized frame: dstH rows of dstW pixels of ch bytes. -/
theorem resizeFramePixels_length (input : List ℕ) (off srcW srcH dstW dstH ch : ℕ) :
    (resizeFramePixels input off srcW srcH dstW dstH ch).length = dstH * (dstW * ch) := by
  rw [resizeFramePixels]
  apply flatMap_range_length
  intro y hy
  apply flatMap_range_length
  intro x hx
  simp

/-- Byte c of destination pixel (x, y) of one resized frame is read from
the source pixel the clamped single-precision coordinates select. -/
theorem resizeFramePixels_getD (input : List ℕ) (off srcW srcH dstW dstH ch x y c : ℕ)
    (hx : x < dstW) (hy : y < dstH) (hc : c < ch) :
    (resizeFramePixels input off srcW srcH dstW dstH ch).getD ((y * dstW + x) * ch + c) 0
      = input.getD
          (off + (srcCoordF32 y srcH dstH * srcW + srcCoordF32 x srcW dstW) * ch + c) 0 := by
  rw [resizeFramePixels]
  have hidx : (y * dstW + x) * ch + c = y * (dstW * ch) + (x * ch + c) := by ring
  rw [hidx]
  rw [flatMap_range_getD dstH (dstW * ch) _
    (fun a ha => by
      apply flatMap_range_length
      intro b hb
      simp) y (x * ch + c) hy (by
      have : (x + 1) * ch ≤ dstW * ch := Nat.mul_le_mul_right ch hx
      calc x * ch + c < x * ch + ch := by omega
        _ = (x + 1) * ch := by ring
        _ ≤ dstW * ch := this)]
  rw [flatMap_range_getD dstW ch _ (fun a ha => by simp) x c hx hc]
  rw [map_range_getD ch c hc]

/-- Claim C4 witness: the amended statement instantiated — merge_pdfs at
three one-byte files and capacity 2, process_image at ten bytes, capacity
5 and quality 100. -/
theorem adapter_capacity_behavior_witness :
    merge_pdfs [[1], [2], [3]] 2 = (-1, []) ∧
    process_image [1, 2, 3, 4, 5, 6, 7, 8, 9, 10] 5 100 1
      = ((5 : ℤ), ([1, 2, 3, 4, 5, 6, 7, 8, 9, 10] : List ℕ).take 5) :=
  ⟨adapter_capacity_behavior.1 [[1], [2], [3]] 2 (by decide) (by decide) (by decide),
    adapter_capacity_behavior.2 [1, 2, 3, 4, 5, 6, 7, 8, 9, 10] 5 100 (by decide) (by decide)
      (by decide)⟩

/-! ## C5 — resize output size and sampling coordinates -/

/-- Claim C5 counterexample: a 1 by 2 image upscaled to 1 by 82 samples
input pixel 0 at destination x = 41 (the single-precision product 41
times fl32(2/82) truncates to 0), while the claimed exact formula
clamp(floor(41 * 2 / 82), 0, 1) selects pixel 1; the two pixels carry the
different values 7 and 9. -/
theorem resize_sampling_cex :
    (resize_image [7, 9] 2 1 82 1 1).2.getD 41 255 = 7 ∧
    ([7, 9] : List ℕ).getD (min (41 * 2 / 82) (2 - 1)) 255 = 9 := by decide

/-- Claim C5 (amended): for positive dimensions the resize output has
exactly dstW times dstH pixels (of ch bytes each) and destination pixel
(x, y) samples the source pixel at coordinate
min(trunc(x * fl32(srcW / dstW)), srcW - 1) — and likewise for y — where
the ratio product is computed in single-precision float arithmetic; the
coordinate always stays within the source, and it agrees with
clamp(floor(x * srcW / dstW), 0, srcW - 1) except where single-precision
rounding shifts the floor by one.  The same holds per frame for
resize_video_frames with 3 channels. -/
theorem resize_engine_characterization (input : List ℕ) (srcW srcH dstW dstH ch frames : ℕ)
    (h1 : 0 < srcW) (h2 : 0 < srcH) (h3 : 0 < dstW) (h4 : 0 < dstH) (h5 : 0 < ch)
    (h6 : 0 < frames) :
    (resize_image input srcW srcH dstW dstH ch).1 = 0 ∧
    (resize_image input srcW srcH dstW dstH ch).2.length = dstH * (dstW * ch) ∧
    (∀ x y c, x < dstW → y < dstH → c < ch →
      (resize_image input srcW srcH dstW dstH ch).2.getD ((y * dstW + x) * ch + c) 0
        = input.getD
            ((srcCoordF32 y srcH dstH * srcW + srcCoordF32 x srcW dstW) * ch + c) 0) ∧
    (∀ x, x < dstW → srcCoordF32 x srcW dstW < srcW) ∧
    (∀ y, y < dstH → srcCoordF32 y srcH dstH < srcH) ∧
    (resize_video_frames input srcW srcH dstW dstH frames).2.length
      = frames * (dstH * (dstW * 3)) ∧
    (∀ f x y c, f < frames → x < dstW → y < dstH → c < 3 →
      (resize_video_frames input srcW srcH dstW dstH frames).2.getD
          (f * (dstH * (dstW * 3)) + ((y * dstW + x) * 3 + c)) 0
        = input.getD (f * (srcW * srcH * 3)
            + (srcCoordF32 y srcH dstH * srcW + srcCoordF32 x srcW dstW) * 3 + c) 0) := by
  have himg : resize_image input srcW srcH dstW dstH ch
      = (0, resizeFramePixels input 0 srcW srcH dstW dstH ch) := by
    rw [resize_image, if_neg (by omega)]
  have hvid : resize_video_frames input srcW srcH dstW dstH frames
      = (0, (List.range frames).flatMap (fun f =>
          resizeFramePixels input (f * (srcW * srcH * 3)) srcW srcH dstW dstH 3)) := by
    rw [resize_video_frames, if_neg (by omega)]
  refine ⟨by rw [himg], ?_, ?_, ?_, ?_, ?_, ?_⟩
  · rw [himg]
    exact resizeFramePixels_length input 0 srcW srcH dstW dstH ch
  · intro x y c hx hy hc
    rw [himg]
    have := resizeFramePixels_getD input 0 srcW srcH dstW dstH ch x y c hx hy hc
    simpa using this
  · intro x hx
    exact Nat.lt_of_le_of_lt (min_le_right _ _) (by omega)
  · intro y hy
    exact Nat.lt_of_le_of_lt (min_le_right _ _) (by omega)
  · rw [hvid]
    exact flatMap_range_length frames (dstH * (dstW * 3)) _
      (fun f hf => resizeFramePixels_length input _ srcW srcH dstW dstH 3)
  · intro f x y c hf hx hy hc
    rw [hvid]
    rw [flatMap_range_getD frames (dstH * (dstW * 3)) _
      (fun a ha => resizeFramePixels_length input _ srcW srcH dstW dstH 3) f
      ((y * dstW + x) * 3 + c) hf (by
        have hyx : y * dstW + x + 1 ≤ dstH * dstW := by
          have h1' : y * dstW + x + 1 ≤ (y + 1) * dstW := by
            have : x + 1 ≤ dstW := hx
            calc y * dstW + x + 1 = y * dstW + (x + 1) := by ring
              _ ≤ y * dstW + dstW := by omega
              _ = (y + 1) * dstW := by ring
          have h2' : (y + 1) * dstW ≤ dstH * dstW := Nat.mul_le_mul_right dstW hy
          omega
        calc (y * dstW + x) * 3 + c < (y * dstW + x) * 3 + 3 := by omega
          _ = (y * dstW + x + 1) * 3 := by ring
          _ ≤ (dstH * dstW) * 3 := Nat.mul_le_mul_right 3 hyx
          _ = dstH * (dstW * 3) := by ring)]
    exact resizeFramePixels_getD input (f * (srcW * srcH * 3)) srcW srcH dstW dstH 3 x y c
      hx hy hc

/-- Claim C5 witness: the resize characterization instantiated at the 1
by 2 image upscaled to 1 by 82 with one channel and one video frame. -/
theorem resize_engine_characterization_witness :
    (resize_image [7, 9] 2 1 82 1 1).1 = 0 ∧
    (resize_image [7, 9] 2 1 82 1 1).2.length = 1 * (82 * 1) ∧
    (∀ x y c, x < 82 → y < 1 → c < 1 →
      (resize_image [7, 9] 2 1 82 1 1).2.getD ((y * 82 + x) * 1 + c) 0
        = ([7, 9] : List ℕ).getD
            ((srcCoordF32 y 1 1 * 2 + srcCoordF32 x 2 82) * 1 + c) 0) ∧
    (∀ x, x < 82 → srcCoordF32 x 2 82 < 2) ∧
    (∀ y, y < 1 → srcCoordF32 y 1 1 < 1) ∧
    (resize_video_frames [7, 9] 2 1 82 1 1).2.length = 1 * (1 * (82 * 3)) ∧
    (∀ f x y c, f < 1 → x < 82 → y < 1 → c < 3 →
      (resize_video_frames [7, 9] 2 1 82 1 1).2.getD
          (f * (1 * (82 * 3)) + ((y * 82 + x) * 3 + c)) 0
        = ([7, 9] : List ℕ).getD (f * (2 * 1 * 3)
            + (srcCoordF32 y 1 1 * 2 + srcCoordF32 x 2 82) * 3 + c) 0) :=
  resize_engine_characterization [7, 9] 2 1 82 1 1 1 (by decide) (by decide) (by decide)
    (by decide) (by decide) (by decide)

/-! ## Loop characterization for the compress functions -/

/-- Closed form of the caWin accumulation: the sum and the count over a
window are the sum and the length of the take of the drop. -/
theorem caWin_eq (input : List ℕ) (i : ℕ) (step : ℕ) :
    caWin input i step
      = (((input.drop i).take step).sum, ((input.drop i).take step).length) := by
  induction step with
  | zero => simp [caWin]
  | succ k ih =>
    rw [caWin, ih]
    by_cases h : i + k < input.length
    · rw [if_pos h]
      have hk : k < (input.drop i).length := by
        rw [List.length_drop]
        omega
      have hget : (input.drop i)[k]? = some (input.getD (i + k) 0) := by
        rw [List.getElem?_drop, List.getElem?_eq_getElem h, List.getD_eq_getElem?_getD,
          List.getElem?_eq_getElem h]
        rfl
      rw [List.take_succ, hget]
      simp
    · rw [if_neg h]
      have hle : (input.drop i).length ≤ k := by
        rw [List.length_drop]
        omega
      rw [List.take_of_length_le hle, List.take_of_length_le (by omega)]

/-- Characterization of the caGo loop: it writes at most its budget of
samples, every window it reads starts strictly inside the input, and
sample j is the truncating integer mean of the window starting at
i + j * step. -/
theorem caGo_spec (input : List ℕ) (step : ℕ) :
    ∀ (r i : ℕ), (caGo input step i r).length ≤ r ∧
      ∀ j < (caGo input step i r).length,
        i + j * step < input.length ∧
        (caGo input step i r).getD j 0
          = ((input.drop (i + j * step)).take step).sum
            / ((input.drop (i + j * step)).take step).length := by
  intro r
  induction r with
  | zero =>
    intro i
    simp [caGo]
  | succ f ih =>
    intro i
    rw [caGo]
    by_cases h : i < input.length
    · rw [if_pos h]
      obtain ⟨ihlen, ihspec⟩ := ih (i + step)
      refine ⟨by simpa using Nat.succ_le_succ ihlen, ?_⟩
      intro j hj
      cases j with
      | zero =>
        refine ⟨by simpa using h, ?_⟩
        simp [caWin_eq]
      | succ jj =>
        have hjj : jj < (caGo input step (i + step) f).length := by
          simpa using hj
        obtain ⟨hb, he⟩ := ihspec jj hjj
        have harith : i + (jj + 1) * step = (i + step) + jj * step := by ring
        refine ⟨by rw [harith]; exact hb, ?_⟩
        rw [harith]
        simpa using he
    · rw [if_neg h]
      simp

/-- Characterization of the ciGo loop: it writes at most its budget of
bytes, every read is strictly inside the input, and byte j is the input
byte at index i + j * step. -/
theorem ciGo_spec (input : List ℕ) (step : ℕ) :
    ∀ (r i : ℕ), (ciGo input step i r).length ≤ r ∧
      ∀ j < (ciGo input step i r).length,
        i + j * step < input.length ∧
        (ciGo input step i r).getD j 0 = input.getD (i + j * step) 0 := by
  intro r
  induction r with
  | zero =>
    intro i
    simp [ciGo]
  | succ f ih =>
    intro i
    rw [ciGo]
    by_cases h : i < input.length
    · rw [if_pos h]
      obtain ⟨ihlen, ihspec⟩ := ih (i + step)
      refine ⟨by simpa using Nat.succ_le_succ ihlen, ?_⟩
      intro j hj
      cases j with
      | zero => exact ⟨by simpa using h, by simp⟩
      | succ jj =>
        have hjj : jj < (ciGo input step (i + step) f).length := by
          simpa using hj
        obtain ⟨hb, he⟩ := ihspec jj hjj
        have harith : i + (jj + 1) * step = (i + step) + jj * step := by ring
        refine ⟨by rw [harith]; exact hb, ?_⟩
        rw [harith]
        simpa using he
    · rw [if_neg h]
      simp

/-- Clamp used by the compress and process functions is a minimum. -/
theorem ite_gt_eq_min (a b : ℕ) : (if a > b then b else a) = min a b := by
  split <;> omega

/-! ## C6 — audio downsampling averages within a window -/

/-- Claim C6 counterexample: with input samples 0, 2, 3 and quality 34
the target is one sample of window size 3; the rounded mean of the window
is 2 (the second conjunct computes round(5/3) as an integer expression),
but compress_audio writes 1, the truncated mean. -/
theorem compress_audio_rounding_cex :
    compress_audio [0, 2, 3] 8 34 = some (1, [1]) ∧
    (2 * (0 + 2 + 3) + 3) / (2 * 3) = 2 ∧ (1 : ℕ) ≠ 2 := by
  refine ⟨by decide, by decide, by decide⟩

/-- Claim C6 (amended): each output sample of compress_audio equals the
TRUNCATING integer mean — floor of the mean, sum divided by count with
integer division — of its window of step consecutive input samples, not
the rounded mean. -/
theorem compress_audio_floor_mean (input : List ℕ) (cap q : ℕ)
    (h1 : 0 < input.length) (h2 : 0 < cap) (h3 : 1 ≤ targetF32 input.length q) :
    ∃ out, compress_audio input cap q
        = some (((min (targetF32 input.length q) cap : ℕ) : ℤ), out) ∧
      ∀ j < out.length,
        out.getD j 0
          = ((input.drop
                (j * max (input.length / min (targetF32 input.length q) cap) 1)).take
              (max (input.length / min (targetF32 input.length q) cap) 1)).sum
            / ((input.drop
                (j * max (input.length / min (targetF32 input.length q) cap) 1)).take
              (max (input.length / min (targetF32 input.length q) cap) 1)).length := by
  have htgt : min (targetF32 input.length q) cap ≠ 0 := by
    have := min_le_left (targetF32 input.length q) cap
    omega
  refine ⟨caGo input (max (input.length / min (targetF32 input.length q) cap) 1) 0
    (min (targetF32 input.length q) cap), ?_, ?_⟩
  · simp only [compress_audio, if_neg (show ¬(input.length = 0 ∨ cap = 0) by omega),
      ite_gt_eq_min, if_neg htgt]
  · intro j hj
    have := (caGo_spec input (max (input.length / min (targetF32 input.length q) cap) 1)
      (min (targetF32 input.length q) cap) 0).2 j hj
    simpa using this.2

/-- Claim C6 witness: the truncated-mean property instantiated at input
samples 0, 2, 3, capacity 8 and quality 34. -/
theorem compress_audio_floor_mean_witness :
    ∃ out, compress_audio [0, 2, 3] 8 34
        = some (((min (targetF32 3 34) 8 : ℕ) : ℤ), out) ∧
      ∀ j < out.length,
        out.getD j 0
          = ((([0, 2, 3] : List ℕ).drop (j * max (3 / min (targetF32 3 34) 8) 1)).take
              (max (3 / min (targetF32 3 34) 8) 1)).sum
            / ((([0, 2, 3] : List ℕ).drop (j * max (3 / min (targetF32 3 34) 8) 1)).take
              (max (3 / min (targetF32 3 34) 8) 1)).length :=
  compress_audio_floor_mean [0, 2, 3] 8 34 (by decide) (by decide) (by decide)

/-! ## C9 — compress functions: safety and return value -/

set_option maxRecDepth 4000 in
/-- Claim C9 counterexample: at 300 input bytes, capacity 1000 and
quality 21, compress_audio returns 62 — the truncation of the
single-precision product 300 times fl32(21/100) — while the claimed
return value min(floor(300 * 21 / 100), 1000) is 63. -/
theorem compress_audio_return_cex :
    (compress_audio (List.replicate 300 0) 1000 21).map (fun p => p.1) = some 62 ∧
    ((min (300 * 21 / 100) 1000 : ℕ) : ℤ) = 63 := by
  refine ⟨by decide, by decide⟩

/-- Claim C9 (amended): for nonempty input and positive capacity, and a
quality whose single-precision target
trunc(input_size * fl32(quality / 100)) is at least 1 (the guard against
the division by zero in the step computation), both compress_audio and
compress_image return min of that single-precision target — not of the
exact floor(input_size * quality / 100), from which it can differ by
one — and the capacity; no division by zero occurs (every window has
positive count), at most capacity many bytes are written, and every read
stays inside the input. -/
theorem compress_safety (input : List ℕ) (cap q : ℕ)
    (h1 : 0 < input.length) (h2 : 0 < cap) (h3 : 1 ≤ targetF32 input.length q) :
    (∃ out, compress_audio input cap q
        = some (((min (targetF32 input.length q) cap : ℕ) : ℤ), out) ∧
      out.length ≤ cap ∧
      ∀ j < out.length,
        j * max (input.length / min (targetF32 input.length q) cap) 1 < input.length ∧
        0 < ((input.drop
              (j * max (input.length / min (targetF32 input.length q) cap) 1)).take
            (max (input.length / min (targetF32 input.length q) cap) 1)).length) ∧
    (∃ out, compress_image input cap q
        = some (((min (targetF32 input.length q) cap : ℕ) : ℤ), out) ∧
      out.length ≤ cap ∧
      ∀ j < out.length,
        j * max (input.length / min (targetF32 input.length q) cap) 1 < input.length ∧
        out.getD j 0
          = input.getD (j * max (input.length / min (targetF32 input.length q) cap) 1) 0) := by
  have htgt : min (targetF32 input.length q) cap ≠ 0 := by
    have := min_le_left (targetF32 input.length q) cap
    omega
  have hmincap : min (targetF32 input.length q) cap ≤ cap := min_le_right _ _
  constructor
  · refine ⟨caGo input (max (input.length / min (targetF32 input.length q) cap) 1) 0
      (min (targetF32 input.length q) cap), ?_, ?_, ?_⟩
    · simp only [compress_audio, if_neg (show ¬(input.length = 0 ∨ cap = 0) by omega),
        ite_gt_eq_min, if_neg htgt]
    · exact le_trans (caGo_spec input _ _ 0).1 hmincap
    · intro j hj
      have hspec := (caGo_spec input
        (max (input.length / min (targetF32 input.length q) cap) 1)
        (min (targetF32 input.length q) cap) 0).2 j hj
      have hb : j * max (input.length / min (targetF32 input.length q) cap) 1
          < input.length := by simpa using hspec.1
      refine ⟨hb, ?_⟩
      rw [List.length_take, List.length_drop]
      have hstep : 1 ≤ max (input.length / min (targetF32 input.length q) cap) 1 :=
        le_max_right _ _
      omega
  · refine ⟨ciGo input (max (input.length / min (targetF32 input.length q) cap) 1) 0
      (min (targetF32 input.length q) cap), ?_, ?_, ?_⟩
    · simp only [compress_image, if_neg (show ¬(input.length = 0 ∨ cap = 0) by omega),
        ite_gt_eq_min, if_neg htgt]
    · exact le_trans (ciGo_spec input _ _ 0).1 hmincap
    · intro j hj
      have hspec := (ciGo_spec input
        (max (input.length / min (targetF32 input.length q) cap) 1)
        (min (targetF32 input.length q) cap) 0).2 j hj
      exact ⟨by simpa using hspec.1, by simpa using hspec.2⟩

/-- Claim C9 witness: the safety statement instantiated at input bytes
1, 2, 3, 4, capacity 3 and quality 50, where the single-precision target
is 2. -/
theorem compress_safety_witness :
    (∃ out, compress_audio [1, 2, 3, 4] 3 50
        = some (((min (targetF32 4 50) 3 : ℕ) : ℤ), out) ∧
      out.length ≤ 3 ∧
      ∀ j < out.length,
        j * max (4 / min (targetF32 4 50) 3) 1 < 4 ∧
        0 < ((([1, 2, 3, 4] : List ℕ).drop (j * max (4 / min (targetF32 4 50) 3) 1)).take
            (max (4 / min (targetF32 4 50) 3) 1)).length) ∧
    (∃ out, compress_image [1, 2, 3, 4] 3 50
        = some (((min (targetF32 4 50) 3 : ℕ) : ℤ), out) ∧
      out.length ≤ 3 ∧
      ∀ j < out.length,
        j * max (4 / min (targetF32 4 50) 3) 1 < 4 ∧
        out.getD j 0
          = ([1, 2, 3, 4] : List ℕ).getD (j * max (4 / min (targetF32 4 50) 3) 1) 0) :=
  compress_safety [1, 2, 3, 4] 3 50 (by decide) (by decide) (by decide)

/-! ## C10 — extract_text safety -/

/-- Invariant of the inner string-copy loop of extract_text: the index
never moves backwards, the output only grows by printable bytes taken
from the input — a subsequence of the input segment the loop scanned —
and the output never outgrows cap - 1 if it started within that bound. -/
theorem etString_spec (input : List ℕ) (cap : ℕ) :
    ∀ (f i : ℕ) (acc : List ℕ),
      i ≤ (etString input cap f i acc).1 ∧
      ∃ s, (etString input cap f i acc).2 = acc ++ s ∧
        (∀ b ∈ s, (32 ≤ b ∧ b ≤ 126) ∧ b ∈ input) ∧
        s.Sublist ((input.drop i).take ((etString input cap f i acc).1 - i)) ∧
        (acc.length ≤ cap - 1 → (etString input cap f i acc).2.length ≤ cap - 1) := by
  intro f
  induction f with
  | zero =>
    intro i acc
    refine ⟨le_refl i, [], by simp [etString], by simp, ?_, by simp [etString]⟩
    simp [etString]
  | succ f ih =>
    intro i acc
    rw [etString]
    by_cases hc : i < input.length ∧ input.getD i 0 ≠ 41 ∧ acc.length < cap - 1
    · rw [if_pos hc]
      obtain ⟨hi, hne, hroom⟩ := hc
      have hgd : input.getD i 0 = input[i] := by
        rw [List.getD_eq_getElem?_getD, List.getElem?_eq_getElem hi]
        rfl
      have hdropi : input.drop i = input.getD i 0 :: input.drop (i + 1) := by
        rw [hgd]
        exact List.drop_eq_getElem_cons hi
      by_cases hp : 32 ≤ input.getD i 0 ∧ input.getD i 0 ≤ 126
      · rw [if_pos hp]
        obtain ⟨h1, s', heq', hmem', hsub', hlen'⟩ := ih (i + 1) (acc ++ [input.getD i 0])
        have hres1 : i ≤ (etString input cap f (i + 1) (acc ++ [input.getD i 0])).1 := by
          omega
        refine ⟨hres1, input.getD i 0 :: s', by simpa using heq', ?_, ?_, ?_⟩
        · intro b hb
          rcases List.mem_cons.mp hb with hbh | hbt
          · subst hbh
            exact ⟨hp, hgd ▸ List.getElem_mem hi⟩
          · exact hmem' b hbt
        · rw [hdropi]
          have harith :
              (etString input cap f (i + 1) (acc ++ [input.getD i 0])).1 - i
              = ((etString input cap f (i + 1) (acc ++ [input.getD i 0])).1 - (i + 1)) + 1 := by
            omega
          rw [harith, List.take_succ_cons]
          exact List.Sublist.cons₂ _ hsub'
        · intro hacc
          apply hlen'
          rw [List.length_append, List.length_singleton]
          omega
      · rw [if_neg hp]
        obtain ⟨h1, s', heq', hmem', hsub', hlen'⟩ := ih (i + 1) acc
        refine ⟨by omega, s', heq', hmem', ?_, ?_⟩
        · rw [hdropi]
          have harith : (etString input cap f (i + 1) acc).1 - i
              = ((etString input cap f (i + 1) acc).1 - (i + 1)) + 1 := by
            omega
          rw [harith, List.take_succ_cons]
          exact List.Sublist.cons _ hsub'
        · exact hlen'
    · rw [if_neg hc]
      refine ⟨le_refl i, [], by simp, by simp, ?_, by simp⟩
      simp

/-- Invariant of the outer scanning loop of extract_text: the final
output extends the accumulator by printable bytes that are either copied
from the input or are inserted separator spaces; the copied bytes (all
the non-space output) form a subsequence of the unscanned input; and the
output never outgrows cap - 1 if the accumulator started within that
bound. -/
theorem etGo_spec (input : List ℕ) (cap : ℕ) :
    ∀ (f i : ℕ) (inText : Bool) (acc : List ℕ),
      ∃ s, etGo input cap f i inText acc = acc ++ s ∧
        (∀ b ∈ s, (32 ≤ b ∧ b ≤ 126) ∧ (b ∈ input ∨ b = 32)) ∧
        (s.filter (fun b => b != 32)).Sublist (input.drop i) ∧
        (acc.length ≤ cap - 1 → (etGo input cap f i inText acc).length ≤ cap - 1) := by
  intro f
  induction f with
  | zero =>
    intro i inText acc
    exact ⟨[], by simp [etGo], by simp, by simp, by simp [etGo]⟩
  | succ f ih =>
    intro i inText acc
    rw [etGo]
    by_cases hc : i < input.length ∧ acc.length < cap - 1
    · rw [if_pos hc]
      have hdrop2 : (input.drop (i + 2)).Sublist (input.drop i) := by
        have : input.drop (i + 2) = (input.drop i).drop 2 := by
          rw [List.drop_drop, Nat.add_comm]
        rw [this]
        exact List.drop_sublist 2 _
      have hdrop1 : (input.drop (i + 1)).Sublist (input.drop i) := by
        have : input.drop (i + 1) = (input.drop i).drop 1 := by
          rw [List.drop_drop, Nat.add_comm]
        rw [this]
        exact List.drop_sublist 1 _
      by_cases hbt : i + 5 ≤ input.length ∧ input.getD i 0 = 66 ∧ input.getD (i + 1) 0 = 84
      · rw [if_pos hbt]
        obtain ⟨s, heq, hmem, hsub, hlen⟩ := ih (i + 2) true acc
        exact ⟨s, heq, hmem, hsub.trans hdrop2, hlen⟩
      · rw [if_neg hbt]
        by_cases het : i + 5 ≤ input.length ∧ input.getD i 0 = 69 ∧ input.getD (i + 1) 0 = 84
        · rw [if_pos het]
          obtain ⟨s, heq, hmem, hsub, hlen⟩ := ih (i + 2) false acc
          exact ⟨s, heq, hmem, hsub.trans hdrop2, hlen⟩
        · rw [if_neg het]
          by_cases hparen : inText = true ∧ input.getD i 0 = 40
          · rw [if_pos hparen]
            obtain ⟨hp1, s1, hps, hmem1, hsub1, hlen1⟩ :=
              etString_spec input cap (input.length + 1) (i + 1) acc
            set p := etString input cap (input.length + 1) (i + 1) acc with hpdef
            set acc2 : List ℕ := if p.2.length < cap - 1 then p.2 ++ [32] else p.2 with hacc2
            obtain ⟨s2, heq2, hmem2, hsub2, hlen2⟩ := ih (p.1 + 1) inText acc2
            have hi1 : i + 1 ≤ p.1 := hp1
            have hs1' : ∃ s1', acc2 = acc ++ s1' ∧
                (∀ b ∈ s1', (32 ≤ b ∧ b ≤ 126) ∧ (b ∈ input ∨ b = 32)) ∧
                (s1'.filter (fun b => b != 32)).Sublist
                  ((input.drop (i + 1)).take (p.1 - (i + 1))) := by
              rw [hacc2]
              by_cases hfit : p.2.length < cap - 1
              · refine ⟨s1 ++ [32], by rw [if_pos hfit, hps, List.append_assoc], ?_, ?_⟩
                · intro b hb
                  rcases List.mem_append.mp hb with hb1 | hb2
                  · obtain ⟨hpr, hin⟩ := hmem1 b hb1
                    exact ⟨hpr, Or.inl hin⟩
                  · rcases List.mem_singleton.mp hb2 with rfl
                    exact ⟨⟨le_refl 32, by omega⟩, Or.inr rfl⟩
                · rw [List.filter_append]
                  simp only [List.filter_cons, List.filter_nil]
                  norm_num
                  exact (List.filter_sublist _).trans hsub1
              · refine ⟨s1, by rw [if_neg hfit, hps], ?_, ?_⟩
                · intro b hb
                  obtain ⟨hpr, hin⟩ := hmem1 b hb
                  exact ⟨hpr, Or.inl hin⟩
                · exact (List.filter_sublist _).trans hsub1
            obtain ⟨s1', hacc2eq, hmem1', hsub1'⟩ := hs1'
            refine ⟨s1' ++ s2, ?_, ?_, ?_, ?_⟩
            · rw [heq2, hacc2eq, List.append_assoc]
            · intro b hb
              rcases List.mem_append.mp hb with hb1 | hb2
              · exact hmem1' b hb1
              · exact hmem2 b hb2
            · rw [List.filter_append]
              have hsegB : (input.drop (p.1 + 1)).Sublist
                  ((input.drop (i + 1)).drop (p.1 - (i + 1))) := by
                have hB : (input.drop (i + 1)).drop (p.1 - (i + 1)) = input.drop p.1 := by
                  rw [List.drop_drop]
                  congr 1
                  omega
                rw [hB]
                have : input.drop (p.1 + 1) = (input.drop p.1).drop 1 := by
                  rw [List.drop_drop, Nat.add_comm]
                rw [this]
                exact List.drop_sublist 1 _
              have happ := List.Sublist.append hsub1' (hsub2.trans hsegB)
              rw [List.take_append_drop] at happ
              exact happ.trans hdrop1
            · intro hacc
              apply hlen2
              rw [hacc2]
              by_cases hfit : p.2.length < cap - 1
              · rw [if_pos hfit, List.length_append, List.length_singleton]
                omega
              · rw [if_neg hfit]
                exact hlen1 hacc
          · rw [if_neg hparen]
            obtain ⟨s, heq, hmem, hsub, hlen⟩ := ih (i + 1) inText acc
            exact ⟨s, heq, hmem, hsub.trans hdrop1, hlen⟩
    · rw [if_neg hc]
      exact ⟨[], by simp, by simp, by simp, fun h => by simpa using h⟩

/-- Claim C10 counterexample: on the input B T ( A ) E T with capacity
10 the output is the byte 65 followed by the separator byte 32 — a space
that does not occur anywhere in the input, so not every written byte is
copied from the input. -/
theorem extract_text_inserted_space_cex :
    extract_text [66, 84, 40, 65, 41, 69, 84] 10 = ⟨2, [65, 32], some 2⟩ ∧
    ¬ (32 ∈ ([66, 84, 40, 65, 41, 69, 84] : List ℕ)) := by
  refine ⟨by decide, by decide⟩

/-- Claim C10 (amended): for nonempty input and positive capacity, the
returned size equals the number of text bytes written and is at most
output_size - 1, the terminating zero byte is stored at exactly that
index, and every written byte is printable ASCII (32 to 126) and is
either copied from the input — the non-space output bytes form a
subsequence of the input, so copies appear in input order — or is a
separator space (byte 32) inserted after a parenthesized string. -/
theorem extract_text_safety (input : List ℕ) (cap : ℕ) (h1 : 0 < input.length)
    (h2 : 0 < cap) :
    (extract_text input cap).ret = ((extract_text input cap).text.length : ℤ) ∧
    (extract_text input cap).text.length ≤ cap - 1 ∧
    (extract_text input cap).nulIndex = some ((extract_text input cap).text.length) ∧
    (∀ b ∈ (extract_text input cap).text, (32 ≤ b ∧ b ≤ 126) ∧ (b ∈ input ∨ b = 32)) ∧
    ((extract_text input cap).text.filter (fun b => b != 32)).Sublist input := by
  obtain ⟨s, heq, hmem, hsub, hlen⟩ := etGo_spec input cap (input.length + 2) 0 false []
  have hacc : etGo input cap (input.length + 2) 0 false [] = s := by simpa using heq
  have hlen' : (etGo input cap (input.length + 2) 0 false []).length ≤ cap - 1 :=
    hlen (by simp)
  have hext : extract_text input cap
      = ⟨((etGo input cap (input.length + 2) 0 false []).length : ℤ),
          etGo input cap (input.length + 2) 0 false [],
          if (etGo input cap (input.length + 2) 0 false []).length < cap then
            some (etGo input cap (input.length + 2) 0 false []).length
          else none⟩ := by
    rw [extract_text, if_neg (by omega)]
  rw [hext]
  refine ⟨rfl, by simpa using hlen', ?_, ?_, ?_⟩
  · have : (etGo input cap (input.length + 2) 0 false []).length < cap := by omega
    simp [this]
  · intro b hb
    rw [hacc] at hb
    exact hmem b hb
  · rw [hacc]
    simpa using hsub

/-- Claim C10 witness: the safety statement instantiated on the input
B T ( A ) E T with capacity 10. -/
theorem extract_text_safety_witness :
    (extract_text [66, 84, 40, 65, 41, 69, 84] 10).ret
      = ((extract_text [66, 84, 40, 65, 41, 69, 84] 10).text.length : ℤ) ∧
    (extract_text [66, 84, 40, 65, 41, 69, 84] 10).text.length ≤ 10 - 1 ∧
    (extract_text [66, 84, 40, 65, 41, 69, 84] 10).nulIndex
      = some ((extract_text [66, 84, 40, 65, 41, 69, 84] 10).text.length) ∧
    (∀ b ∈ (extract_text [66, 84, 40, 65, 41, 69, 84] 10).text,
      (32 ≤ b ∧ b ≤ 126) ∧ (b ∈ ([66, 84, 40, 65, 41, 69, 84] : List ℕ) ∨ b = 32)) ∧
    ((extract_text [66, 84, 40, 65, 41, 69, 84] 10).text.filter
      (fun b => b != 32)).Sublist ([66, 84, 40, 65, 41, 69, 84] : List ℕ) :=
  extract_text_safety [66, 84, 40, 65, 41, 69, 84] 10 (by decide) (by decide)
